import Mathlib

/-!
Shallow embedding of the table/text extraction core of `src/app.py`
(a Streamlit front-end around the Tensorlake document-parse API), together
with theorems settling the frozen claims about its specification.

The embedded code consists of the pure helper functions
`clean_number`, `fix_duplicate_headers`, `html_table_to_matrix`,
`html_table_to_objects` (src/app.py lines 65-115), the per-page
table-processing loop of the main block (lines 293-333), and the
table/text separation step (lines 295-302, via BeautifulSoup).

Python strings are modelled as Lean `String` restricted to their list of
characters; the Python string methods used by the code (`str.strip`,
`str.lower`, `str.replace(",", "")`, `int(...)` parsing, f-string
formatting of an `int`) are embedded explicitly below, at ASCII fidelity
(the inputs the program feeds them are HTML cell texts; the embedding
models ASCII whitespace/case, which is what `int`'s grammar and the
header spellings in the code exercise).
-/

namespace App

/-- Python ASCII whitespace as stripped by `str.strip()`:
space and `\t`, `\n`, `\v`, `\f`, `\r` (codepoints 9-13 and 32). -/
def pyWhitespace (c : Char) : Bool := c.toNat = 32 || (9 ≤ c.toNat && c.toNat ≤ 13)

/-- Embedding of Python `s.strip()`: drop whitespace from both ends. -/
def pyStrip (s : String) : String :=
  ⟨((s.data.dropWhile pyWhitespace).reverse.dropWhile pyWhitespace).reverse⟩

/-- ASCII lower-casing of one character, as Python `str.lower()` does on ASCII. -/
def lowerChar (c : Char) : Char :=
  if 65 ≤ c.toNat ∧ c.toNat ≤ 90 then Char.ofNat (c.toNat + 32) else c

/-- Embedding of Python `s.lower()` (ASCII part). -/
def pyLower (s : String) : String := ⟨s.data.map lowerChar⟩

/-- Embedding of `value.replace(",", "")` (src/app.py line 67): with a
one-character pattern and empty replacement this removes every comma. -/
def stripCommas (s : String) : String := ⟨s.data.filter (fun c => c != ',')⟩

/-- ASCII decimal digit test. -/
def asciiDigit (c : Char) : Bool := 48 ≤ c.toNat && c.toNat ≤ 57

/-- State machine for the body of a Python `int` literal after the optional
sign: `digit (digit | "_" digit)*` — underscores only between digits.
`expectDigit` is `true` at the start and right after an underscore. -/
def intBodyAux : List Char → Bool → Bool
  | [], expectDigit => !expectDigit
  | c :: cs, expectDigit =>
    if asciiDigit c then intBodyAux cs false
    else if c = '_' && !expectDigit then intBodyAux cs true
    else false

/-- The digit/underscore body of a Python integer literal. -/
def intBody (cs : List Char) : Bool := intBodyAux cs true

/-- Decimal value of a digit string, ignoring grouping underscores. -/
def digitsVal (cs : List Char) : Nat :=
  (cs.filter (fun c => c != '_')).foldl (fun a c => a * 10 + (c.toNat - 48)) 0

/-- Embedding of Python `int(s)` on a string: strip surrounding whitespace,
allow one optional sign, then require a valid digit body; `none` models the
`ValueError` raised on any other shape. -/
def pyIntParse (s : String) : Option Int :=
  match (pyStrip s).data with
  | [] => none
  | c :: rest =>
    if c = '+' then (if intBody rest then some ((digitsVal rest : Nat) : Int) else none)
    else if c = '-' then (if intBody rest then some (-((digitsVal rest : Nat) : Int)) else none)
    else (if intBody (c :: rest) then some ((digitsVal (c :: rest) : Nat) : Int) else none)

/-- A Python value that can appear in a produced table record:
an `int`, a `str`, or `None`. -/
inductive PyVal where
  | int (n : Int)
  | str (s : String)
  | none
deriving DecidableEq

/-- Embedding of `clean_number` (src/app.py lines 65-69):

    def clean_number(value):
        try:
            return int(value.replace(",", ""))
        except Exception:
            return value

The `try/except` is modelled by the `Option` result of `pyIntParse`; on
failure the original `value` (commas included) is returned unchanged.
The function is total: it never raises. -/
def clean_number (value : String) : PyVal :=
  match pyIntParse (stripCommas value) with
  | some n => PyVal.int n
  | Option.none => PyVal.str value

/-- The character of an ASCII decimal digit `d`. -/
def digitChar (d : Nat) : Char := Char.ofNat (48 + d)

/-- Fuel-driven decimal digit list of a natural number (most significant
first); the fuel only bounds the recursion depth and `n + 1` units always
suffice (`natDigitsAux_fuel`). -/
def natDigitsAux : Nat → Nat → List Char
  | 0, _ => []
  | fuel+1, n => if n < 10 then [digitChar n] else natDigitsAux fuel (n / 10) ++ [digitChar (n % 10)]

/-- Decimal representation of a natural number, as Python's f-string
formatting `f"{n}"` renders a non-negative `int`. -/
def natRepr (n : Nat) : String := ⟨natDigitsAux (n + 1) n⟩

/-- The base key of a header cell (src/app.py line 76):
`key = h if h.strip() else "col"` — a blank/whitespace-only cell gets the
literal base key `"col"`, any other cell is kept verbatim. -/
def baseKey (h : String) : String := if pyStrip h = "" then "col" else h

/-- Recursion of `fix_duplicate_headers` over the remaining headers.
The Python dict `seen` is modelled as a total counter function, `0` meaning
"key not present"; `seen[key] = 1` on first sight, `seen[key] += 1` and
suffix `f"{key}_{seen[key]}"` afterwards (src/app.py lines 73-83). -/
def fixDupAux : List String → (String → Nat) → List String
  | [], _ => []
  | h :: hs, seen =>
    let key := baseKey h
    if seen key = 0 then
      key :: fixDupAux hs (fun k => if k = key then 1 else seen k)
    else
      (key ++ "_" ++ natRepr (seen key + 1)) :: fixDupAux hs (fun k => if k = key then seen key + 1 else seen k)

/-- Embedding of `fix_duplicate_headers` (src/app.py lines 72-83). -/
def fix_duplicate_headers (headers : List String) : List String :=
  fixDupAux headers (fun _ => 0)

/-- A produced table record (the Python dict built per data row,
src/app.py lines 100-113). The only keys ever written are `year_2024`,
`year_2023`, `note` and `name`; `Option.none` in a field models the key
being absent from the dict, `some PyVal.none` models the key mapped to
Python `None`. -/
structure Entry where
  year_2024 : Option PyVal := Option.none
  year_2023 : Option PyVal := Option.none
  note : Option PyVal := Option.none
  name : Option PyVal := Option.none
deriving DecidableEq

/-- The classification a header cell falls into. -/
inductive HKind where
  | y24
  | y23
  | note
  | other
deriving DecidableEq

/-- Classification of one header cell by the `if/elif/else` chain of
`html_table_to_objects` (src/app.py lines 102-110), evaluated top to
bottom on `h_low = h.lower().strip()`. -/
def headerKind (h : String) : HKind :=
  let h_low := pyStrip (pyLower h)
  if h_low = "2024" ∨ h_low = "year_2024" then HKind.y24
  else if h_low = "2023" ∨ h_low = "as restated 2023" ∨ h_low = "year_2023" then HKind.y23
  else if h_low = "note" then HKind.note
  else HKind.other

/-- One iteration of the inner loop of `html_table_to_objects`
(src/app.py lines 101-111): update the record being built from the pair
of one header cell `h` and its same-position data cell `v`.
`entry["note"] = clean_number(v) if v else None` tests Python string
truthiness, i.e. `v` nonempty. -/
def applyCell (entry : Entry) (h v : String) : Entry :=
  match headerKind h with
  | HKind.y24 => { entry with year_2024 := some (clean_number v) }
  | HKind.y23 => { entry with year_2023 := some (clean_number v) }
  | HKind.note => { entry with note := some (if v = "" then PyVal.none else clean_number v) }
  | HKind.other => { entry with name := some (PyVal.str v) }

/-- The record built for one data row: `for h, v in zip(header, row)`
folded over the empty dict (src/app.py lines 100-111). `List.zip` stops
at the shorter of the two sequences, exactly as Python `zip` does. -/
def rowEntry (header row : List String) : Entry :=
  (header.zip row).foldl (fun e p => applyCell e p.1 p.2) {}

/-- The matrix-to-records step of `html_table_to_objects`
(src/app.py lines 91-115): after `matrix = html_table_to_matrix(table)`
the source returns `[]` when `not matrix or len(matrix) < 2`, and
otherwise one record per data row `matrix[1:]` against the raw header
row `matrix[0]`. The claims address the function at this matrix level;
`table_to_objects` below composes it with the HTML walk as the source
does. -/
def html_table_to_objects : List (List String) → List Entry
  | [] => []
  | [_] => []
  | header :: rest => rest.map (rowEntry header)

mutual
/-- An HTML parse-tree node, as produced by the external tree parser
(BeautifulSoup in the source): a text node or an element with a tag and
children. `NodeList` is a mutually-defined list so that all tree
recursion is structural. -/
inductive Node where
  | text (s : String)
  | elem (tag : String) (children : NodeList)
inductive NodeList where
  | nil
  | cons (n : Node) (ns : NodeList)
end

/-- Conversion from an ordinary list of nodes. -/
def toNodeList : List Node → NodeList
  | [] => NodeList.nil
  | n :: ns => NodeList.cons n (toNodeList ns)

/-- Whether a node is a `<table>` element. -/
def isTable : Node → Bool
  | Node.elem t _ => t = "table"
  | _ => false

mutual
/-- All text-node strings of a subtree, in document order (what
BeautifulSoup's `get_text` walks). -/
def textsN : Node → List String
  | Node.text s => [s]
  | Node.elem _ cs => textsL cs
/-- All text-node strings of a list of subtrees, in document order. -/
def textsL : NodeList → List String
  | NodeList.nil => []
  | NodeList.cons n ns => textsN n ++ textsL ns
end

/-- Joining a list of strings with a separator. -/
def joinSep (sep : String) : List String → String
  | [] => ""
  | [s] => s
  | s :: ss => s ++ sep ++ joinSep sep ss

/-- BeautifulSoup `get_text(sep, strip=True)` over a list of collected
text strings: strip each string, drop the ones that become empty, join
with the separator. -/
def get_text (sep : String) (texts : List String) : String :=
  joinSep sep ((texts.map pyStrip).filter (fun s => s != ""))

mutual
/-- Net effect on a subtree of `for t in tables: t.extract()` after
`tables = soup.find_all("table")` (src/app.py lines 296-300): every
`table` element strictly below the root of the subtree is detached.
Applied to the soup's trees this removes every located table (detaching
an outermost table takes its nested tables with it); applied to one
FOUND table node it yields that table as the loop leaves it — the
`extract()` of a table nested inside it has detached the nested table
from it — which is the state `html_table_to_matrix` sees at
src/app.py line 310. -/
def pruneTables : Node → Node
  | Node.text s => Node.text s
  | Node.elem t cs => Node.elem t (pruneTablesL cs)
/-- Table extraction over a list of sibling subtrees. -/
def pruneTablesL : NodeList → NodeList
  | NodeList.nil => NodeList.nil
  | NodeList.cons n ns =>
    if isTable n then pruneTablesL ns else NodeList.cons (pruneTables n) (pruneTablesL ns)
end

mutual
/-- BeautifulSoup tag search over a subtree: every element (the root
included) whose tag is in `tags`, in document (pre-)order, an element
listed before the matches inside it. -/
def findTagsN (tags : List String) : Node → List Node
  | Node.text _ => []
  | Node.elem t cs => (if t ∈ tags then [Node.elem t cs] else []) ++ findTagsL tags cs
/-- BeautifulSoup tag search over a list of sibling subtrees. -/
def findTagsL (tags : List String) : NodeList → List Node
  | NodeList.nil => []
  | NodeList.cons n ns => findTagsN tags n ++ findTagsL tags ns
end

/-- BeautifulSoup `element.find_all(tags)`: matches among descendants
only, the element itself excluded. -/
def find_all (tags : List String) : Node → List Node
  | Node.text _ => []
  | Node.elem _ cs => findTagsL tags cs

/-- Embedding of `html_table_to_matrix` (src/app.py lines 86-88):
rows are the `<tr>` descendants of the table in order, cells the
`<td>`/`<th>` descendants of each row, each cell rendered by
`cell.get_text(strip=True)` (separator `""`). -/
def html_table_to_matrix (table : Node) : List (List String) :=
  (find_all ["tr"] table).map
    (fun row => (find_all ["td", "th"] row).map (fun cell => get_text "" (textsN cell)))

/-- The source `html_table_to_objects(table)` on an HTML table node:
the matrix walk followed by the matrix-to-records step. -/
def table_to_objects (table : Node) : List Entry :=
  html_table_to_objects (html_table_to_matrix table)

/-- Result of the per-page split (src/app.py lines 295-302): the plain
text of the page after every table element was extracted
(`soup.get_text("\n", strip=True)`), and the matrix of each located
table, in document order. -/
structure PageOut where
  text_plain : String
  fragments : List (List (List String))
deriving DecidableEq

/-- The table/text separation step of the main loop for one page's
parsed markup (src/app.py lines 295-302 and the per-table
`html_table_to_matrix` calls at line 310). `tables` is collected by
`find_all` on the intact tree (line 296); the extraction loop
(lines 299-300) then detaches every found table, also from a PARENT
table when nested, so the matrix of each located table is computed on
the table with all of its own descendant tables removed
(`pruneTables t`). -/
def splitPage (soup : NodeList) : PageOut :=
  { text_plain := get_text "\n" (textsL (pruneTablesL soup)),
    fragments :=
      (findTagsL ["table"] soup).map (fun t => html_table_to_matrix (pruneTables t)) }

/-- One entry of `all_tables_json["tables"]` (src/app.py lines 320-324). -/
structure JsonTable where
  page : Nat
  table_index : Nat
  rows : List Entry
deriving DecidableEq

/-- One element of `page_tables` (src/app.py line 326) — equally, the
(headers, rows) arguments of the `tabulate(...)` grid appended to
`full_text_with_tables` at lines 317-318, which is produced in the same
loop iteration from the same data. -/
structure TView where
  headers : List String
  rows : List (List String)
deriving DecidableEq

/-- The per-page table loop of the main block (src/app.py lines 309-326),
at the level of the matrices of the located tables: `t_index` enumerates
ALL located tables starting at 1; a table whose matrix has fewer than 2
rows is skipped (`continue`) before any output is produced for it; an
accepted table appends its JSON entry (with `rows` recomputed from the
raw table by `html_table_to_objects`) and its deduplicated-header view. -/
def processTables (page : Nat) : Nat → List (List (List String)) → List JsonTable × List TView
  | _, [] => ([], [])
  | tIndex, m :: rest =>
    if m.length < 2 then processTables page (tIndex + 1) rest
    else
      let r := processTables page (tIndex + 1) rest
      ({ page := page, table_index := tIndex, rows := html_table_to_objects m } :: r.1,
       { headers := fix_duplicate_headers (m.headD []), rows := m.tail } :: r.2)

/-- Enumeration `enumerate(xs, start=i)`. -/
def enumFrom : Nat → List α → List (Nat × α)
  | _, [] => []
  | i, a :: as => (i, a) :: enumFrom (i + 1) as

/-- Number of earlier headers sharing a base key: how often base key `k`
occurs among the base keys of the headers `hs`. -/
def countKey (k : String) (hs : List String) : Nat := (hs.map baseKey).count k

/-- The header emitted for the `n`-th occurrence (`n ≥ 1`) of base key
`k`: the base key itself the first time, `"{k}_{n}"` afterwards. -/
def emitHeader (k : String) (n : Nat) : String :=
  if n ≤ 1 then k else k ++ "_" ++ natRepr n

/-- Reading a most-significant-first digit list back as a number. -/
def decodeDigits (cs : List Char) : Nat :=
  cs.foldl (fun a c => a * 10 + (c.toNat - 48)) 0

/-! Section: Decimal representation -/

theorem digitChar_toNat {d : Nat} (hd : d < 10) : (digitChar d).toNat = 48 + d := by
  interval_cases d <;> decide

theorem natDigitsAux_mem_digit :
    ∀ (fuel n : Nat) (c : Char), c ∈ natDigitsAux fuel n → 48 ≤ c.toNat ∧ c.toNat ≤ 57 := by
  intro fuel
  induction fuel with
  | zero => intro n c hc; simp [natDigitsAux] at hc
  | succ f ih =>
    intro n c hc
    simp only [natDigitsAux] at hc
    by_cases hn : n < 10
    · rw [if_pos hn] at hc
      simp only [List.mem_singleton] at hc
      subst hc
      rw [digitChar_toNat hn]
      omega
    · rw [if_neg hn] at hc
      rcases List.mem_append.1 hc with h1 | h2
      · exact ih _ _ h1
      · simp only [List.mem_singleton] at h2
        subst h2
        rw [digitChar_toNat (Nat.mod_lt _ (by omega))]
        omega

theorem decodeDigits_natDigitsAux :
    ∀ (fuel n : Nat), n < fuel → decodeDigits (natDigitsAux fuel n) = n := by
  intro fuel
  induction fuel with
  | zero => intro n hn; omega
  | succ f ih =>
    intro n hn
    by_cases h10 : n < 10
    · simp only [natDigitsAux, if_pos h10, decodeDigits, List.foldl_cons, List.foldl_nil]
      rw [digitChar_toNat h10]
      omega
    · have hdiv : n / 10 < n := Nat.div_lt_self (by omega) (by omega)
      have hfuel : n / 10 < f := by omega
      simp only [natDigitsAux, if_neg h10, decodeDigits, List.foldl_append,
        List.foldl_cons, List.foldl_nil]
      have := ih (n / 10) hfuel
      simp only [decodeDigits] at this
      rw [this, digitChar_toNat (Nat.mod_lt _ (by omega))]
      have := Nat.div_add_mod n 10
      omega

theorem natRepr_inj {m n : Nat} (h : natRepr m = natRepr n) : m = n := by
  have hd : natDigitsAux (m + 1) m = natDigitsAux (n + 1) n := congrArg String.data h
  have h1 := decodeDigits_natDigitsAux (m + 1) m (by omega)
  have h2 := decodeDigits_natDigitsAux (n + 1) n (by omega)
  rw [hd] at h1
  omega

theorem natRepr_no_underscore (n : Nat) : ('_' : Char) ∉ (natRepr n).data := by
  intro hmem
  have hdig := natDigitsAux_mem_digit (n + 1) n _ hmem
  have h95 : ('_' : Char).toNat = 95 := by decide
  omega

/-! Section: Emitted headers are injective on underscore-free base keys -/

theorem sep_append_inj :
    ∀ (l1 l2 r1 r2 : List Char), '_' ∉ l1 → '_' ∉ l2 →
      l1 ++ '_' :: r1 = l2 ++ '_' :: r2 → l1 = l2 ∧ r1 = r2 := by
  intro l1
  induction l1 with
  | nil =>
    intro l2 r1 r2 _ h2 heq
    cases l2 with
    | nil => simpa using heq
    | cons b l2' =>
      simp only [List.nil_append, List.cons_append, List.cons.injEq] at heq
      exact absurd (heq.1 ▸ List.mem_cons_self b l2') h2
  | cons a l1' ih =>
    intro l2 r1 r2 h1 h2 heq
    cases l2 with
    | nil =>
      simp only [List.cons_append, List.nil_append, List.cons.injEq] at heq
      exact absurd (heq.1 ▸ List.mem_cons_self a l1') h1
    | cons b l2' =>
      simp only [List.cons_append, List.cons.injEq] at heq
      obtain ⟨hab, htail⟩ := heq
      have h1' : '_' ∉ l1' := fun hm => h1 (List.mem_cons_of_mem a hm)
      have h2' : '_' ∉ l2' := fun hm => h2 (List.mem_cons_of_mem b hm)
      obtain ⟨hl, hr⟩ := ih l2' r1 r2 h1' h2' htail
      exact ⟨by rw [hab, hl], hr⟩

theorem suffixed_data (k : String) (n : Nat) :
    (k ++ "_" ++ natRepr n).data = k.data ++ '_' :: (natRepr n).data := by
  have hu : ("_" : String).data = ['_'] := by decide
  rw [String.data_append, String.data_append, hu, List.append_assoc]
  rfl

theorem emitHeader_inj {k1 k2 : String} {n1 n2 : Nat}
    (hk1 : ('_' : Char) ∉ k1.data) (hk2 : ('_' : Char) ∉ k2.data)
    (h1 : 1 ≤ n1) (h2 : 1 ≤ n2)
    (heq : emitHeader k1 n1 = emitHeader k2 n2) : k1 = k2 ∧ n1 = n2 := by
  unfold emitHeader at heq
  by_cases hn1 : n1 ≤ 1 <;> by_cases hn2 : n2 ≤ 1
  · rw [if_pos hn1, if_pos hn2] at heq
    exact ⟨heq, by omega⟩
  · rw [if_pos hn1, if_neg hn2] at heq
    exfalso
    apply hk1
    rw [heq, suffixed_data]
    simp
  · rw [if_neg hn1, if_pos hn2] at heq
    exfalso
    apply hk2
    rw [← heq, suffixed_data]
    simp
  · rw [if_neg hn1, if_neg hn2] at heq
    have hdata := congrArg String.data heq
    rw [suffixed_data, suffixed_data] at hdata
    obtain ⟨hk, hr⟩ :=
      sep_append_inj k1.data k2.data (natRepr n1).data (natRepr n2).data hk1 hk2 hdata
    refine ⟨String.ext hk, natRepr_inj (String.ext hr)⟩

theorem baseKey_no_underscore {h : String} (hh : ('_' : Char) ∉ h.data) :
    ('_' : Char) ∉ (baseKey h).data := by
  unfold baseKey
  split
  · decide
  · exact hh

/-! Section: Base-key occurrence counting -/

theorem countKey_nil (k : String) : countKey k [] = 0 := rfl

theorem countKey_append (k : String) (l1 l2 : List String) :
    countKey k (l1 ++ l2) = countKey k l1 + countKey k l2 := by
  simp [countKey, List.count_append]

theorem countKey_singleton (k h : String) :
    countKey k [h] = if baseKey h = k then 1 else 0 := by
  simp [countKey, List.count_singleton]

theorem countKey_take_succ_self (headers : List String) (i : Nat) (hi : i < headers.length) :
    countKey (baseKey (headers.get ⟨i, hi⟩)) (headers.take (i + 1)) =
      countKey (baseKey (headers.get ⟨i, hi⟩)) (headers.take i) + 1 := by
  rw [List.take_succ, countKey_append, List.getElem?_eq_getElem hi]
  simp [countKey_singleton, List.get_eq_getElem]

theorem countKey_take_le (headers : List String) (k : String) {i j : Nat} (hij : i ≤ j) :
    countKey k (headers.take i) ≤ countKey k (headers.take j) := by
  have : headers.take j = headers.take i ++ (headers.drop i).take (j - i) := by
    rw [← List.take_add]
    congr 1
    omega
  rw [this, countKey_append]
  omega

theorem countKey_take_lt (headers : List String) {i j : Nat} (hij : i < j)
    (hj : j < headers.length) :
    countKey (baseKey (headers.get ⟨j, hj⟩)) (headers.take (i + 1)) <
      countKey (baseKey (headers.get ⟨j, hj⟩)) (headers.take (j + 1)) := by
  have h1 := countKey_take_succ_self headers j hj
  have h2 := countKey_take_le headers (baseKey (headers.get ⟨j, hj⟩)) (show i + 1 ≤ j by omega)
  omega

/-! Section: The deduplication recursion, characterized positionally -/

theorem fixDupAux_length :
    ∀ (hs : List String) (seen : String → Nat), (fixDupAux hs seen).length = hs.length := by
  intro hs
  induction hs with
  | nil => intro seen; rfl
  | cons h t ih =>
    intro seen
    simp only [fixDupAux]
    split <;> simp [ih]

theorem fix_duplicate_headers_length (headers : List String) :
    (fix_duplicate_headers headers).length = headers.length :=
  fixDupAux_length headers _

theorem fixDupAux_getElem? :
    ∀ (hs : List String) (seen : String → Nat) (pre : List String),
      (∀ k, seen k = countKey k pre) →
      ∀ (i : Nat) (h : String), hs[i]? = some h →
        (fixDupAux hs seen)[i]? =
          some (emitHeader (baseKey h) (countKey (baseKey h) (pre ++ hs.take (i + 1)))) := by
  intro hs
  induction hs with
  | nil => intro seen pre hseen i h hi; simp at hi
  | cons h0 t ih =>
    intro seen pre hseen i h hi
    cases i with
    | zero =>
      rw [List.getElem?_cons_zero] at hi
      obtain rfl : h0 = h := Option.some.inj hi
      have hcount : countKey (baseKey h0) (pre ++ [h0]) = seen (baseKey h0) + 1 := by
        rw [countKey_append, countKey_singleton, hseen, if_pos rfl]
      rw [List.take_succ_cons, List.take_zero]
      simp only [fixDupAux]
      split
      · rename_i hzero
        rw [List.getElem?_cons_zero, hcount, hzero]
        simp [emitHeader]
      · rename_i hpos
        rw [List.getElem?_cons_zero, hcount]
        simp only [emitHeader, if_neg (by omega : ¬ seen (baseKey h0) + 1 ≤ 1)]
    | succ i =>
      rw [List.getElem?_cons_succ] at hi
      rw [List.take_succ_cons]
      have hassoc : pre ++ h0 :: List.take (i + 1) t = (pre ++ [h0]) ++ List.take (i + 1) t := by
        simp
      rw [hassoc]
      simp only [fixDupAux]
      split
      · rename_i hzero
        rw [List.getElem?_cons_succ]
        apply ih _ (pre ++ [h0]) _ i h hi
        intro k
        rw [countKey_append, countKey_singleton, ← hseen]
        by_cases hk : k = baseKey h0
        · subst hk
          rw [if_pos rfl, hzero]
          simp
        · rw [if_neg hk, if_neg (show ¬baseKey h0 = k from fun hc => hk hc.symm)]
          simp
      · rename_i hpos
        rw [List.getElem?_cons_succ]
        apply ih _ (pre ++ [h0]) _ i h hi
        intro k
        rw [countKey_append, countKey_singleton, ← hseen]
        by_cases hk : k = baseKey h0
        · subst hk
          rw [if_pos rfl]
          simp
        · rw [if_neg hk, if_neg (show ¬baseKey h0 = k from fun hc => hk hc.symm)]
          simp

theorem fix_duplicate_headers_getElem? (headers : List String) (i : Nat) (h : String)
    (hi : headers[i]? = some h) :
    (fix_duplicate_headers headers)[i]? =
      some (emitHeader (baseKey h) (countKey (baseKey h) (headers.take (i + 1)))) := by
  have := fixDupAux_getElem? headers (fun _ => 0) [] (fun k => rfl) i h hi
  simpa using this

theorem fix_duplicate_headers_nodup (headers : List String)
    (hfree : ∀ h ∈ headers, ('_' : Char) ∉ h.data) :
    (fix_duplicate_headers headers).Nodup := by
  rw [List.nodup_iff_getElem?_ne_getElem?]
  intro i j hij hjlen
  rw [fix_duplicate_headers_length] at hjlen
  have hj : j < headers.length := hjlen
  have hi : i < headers.length := lt_trans hij hj
  have hhi : headers[i]? = some (headers.get ⟨i, hi⟩) := by
    rw [List.getElem?_eq_getElem hi]; rfl
  have hhj : headers[j]? = some (headers.get ⟨j, hj⟩) := by
    rw [List.getElem?_eq_getElem hj]; rfl
  rw [fix_duplicate_headers_getElem? headers i _ hhi,
    fix_duplicate_headers_getElem? headers j _ hhj]
  intro hcontra
  have heq := Option.some.inj hcontra
  have hki : ('_' : Char) ∉ (baseKey (headers.get ⟨i, hi⟩)).data :=
    baseKey_no_underscore (hfree _ (List.get_mem headers i hi))
  have hkj : ('_' : Char) ∉ (baseKey (headers.get ⟨j, hj⟩)).data :=
    baseKey_no_underscore (hfree _ (List.get_mem headers j hj))
  have hN1 : 1 ≤ countKey (baseKey (headers.get ⟨i, hi⟩)) (headers.take (i + 1)) := by
    rw [countKey_take_succ_self headers i hi]
    omega
  have hN2 : 1 ≤ countKey (baseKey (headers.get ⟨j, hj⟩)) (headers.take (j + 1)) := by
    rw [countKey_take_succ_self headers j hj]
    omega
  obtain ⟨hkeq, hNeq⟩ := emitHeader_inj hki hkj hN1 hN2 heq
  have hmono := countKey_take_lt headers hij hj
  rw [← hkeq] at hmono hNeq
  omega

/-! Section: Record construction lemmas -/

theorem zip_take_eq {α β : Type} :
    ∀ (l1 : List α) (l2 : List β),
      l1.zip l2 = (l1.take l2.length).zip (l2.take l1.length) := by
  intro l1
  induction l1 with
  | nil => intro l2; simp
  | cons a l1' ih =>
    intro l2
    cases l2 with
    | nil => simp
    | cons b l2' =>
      rw [List.zip_cons_cons]
      simp only [List.length_cons, List.take_succ_cons, List.zip_cons_cons]
      rw [← ih l2']

theorem applyCell_name_other {h : String} (hk : headerKind h = HKind.other)
    (e : Entry) (v : String) : (applyCell e h v).name = some (PyVal.str v) := by
  unfold applyCell
  rw [hk]

theorem applyCell_name_keep {h : String} (hk : ¬ headerKind h = HKind.other)
    (e : Entry) (v : String) : (applyCell e h v).name = e.name := by
  unfold applyCell
  cases h4 : headerKind h with
  | y24 => rfl
  | y23 => rfl
  | note => rfl
  | other => exact absurd h4 hk

theorem foldl_applyCell_name :
    ∀ (ps : List (String × String)) (e : Entry),
      (ps.foldl (fun e p => applyCell e p.1 p.2) e).name =
        match (ps.filter (fun q => decide (headerKind q.1 = HKind.other))).getLast? with
        | some p => some (PyVal.str p.2)
        | Option.none => e.name := by
  intro ps
  induction ps with
  | nil => intro e; rfl
  | cons p ps' ih =>
    intro e
    rw [List.foldl_cons, ih]
    by_cases hk : headerKind p.1 = HKind.other
    · rw [List.filter_cons_of_pos (by simpa using hk), List.getLast?_cons]
      cases hrest : (ps'.filter (fun q => decide (headerKind q.1 = HKind.other))).getLast? with
      | none => simp [hrest, applyCell_name_other hk]
      | some q => simp [hrest]
    · rw [List.filter_cons_of_neg (by simpa using hk)]
      cases hrest : (ps'.filter (fun q => decide (headerKind q.1 = HKind.other))).getLast? with
      | none => simp [hrest, applyCell_name_keep hk]
      | some q => simp [hrest]

/-! Section: Claims C1 and C5 — header deduplication -/

/-- Claim C1 (amended). For every input list of header strings,
`fix_duplicate_headers` returns a list of the same length, in the same
order (the `i`-th output is the emitted form of the `i`-th input's base
key), and — provided no input header contains an underscore character —
its elements are pairwise-unique. (Unrestricted pairwise uniqueness, as
the claim states it, is false: an input header that already looks like a
suffixed occurrence, such as `"a_2"`, collides with a generated
suffix.) -/
theorem C1_dedup_length_unique (headers : List String) :
    (fix_duplicate_headers headers).length = headers.length ∧
    (∀ (i : Nat) (h : String), headers[i]? = some h →
      (fix_duplicate_headers headers)[i]? =
        some (emitHeader (baseKey h) (countKey (baseKey h) (headers.take (i + 1))))) ∧
    ((∀ h ∈ headers, ('_' : Char) ∉ h.data) → (fix_duplicate_headers headers).Nodup) :=
  ⟨fix_duplicate_headers_length headers,
   fun i h hi => fix_duplicate_headers_getElem? headers i h hi,
   fix_duplicate_headers_nodup headers⟩

/-- Claim C1 counterexample. On the input `["a", "a", "a_2"]` the function
returns `["a", "a_2", "a_2"]`, whose elements are not pairwise-unique:
the claim "all outputs pairwise-unique" is false as stated. -/
theorem C1_counterexample :
    fix_duplicate_headers ["a", "a", "a_2"] = ["a", "a_2", "a_2"] ∧
    ¬ (fix_duplicate_headers ["a", "a", "a_2"]).Nodup :=
  ⟨by decide, by decide⟩

/-- Witness for `C1_dedup_length_unique` at the concrete underscore-free
input `["a", "b", "a", " "]`; the repeated `"a"` at index 2 comes out as
`"a_2"`. -/
theorem C1_witness :
    (fix_duplicate_headers ["a", "b", "a", " "]).length = 4 ∧
    (fix_duplicate_headers ["a", "b", "a", " "])[2]? = some "a_2" ∧
    (fix_duplicate_headers ["a", "b", "a", " "]).Nodup :=
  ⟨(C1_dedup_length_unique ["a", "b", "a", " "]).1,
   ((C1_dedup_length_unique ["a", "b", "a", " "]).2.1 2 "a" rfl).trans (by decide),
   (C1_dedup_length_unique ["a", "b", "a", " "]).2.2 (by decide)⟩

/-- Claim C5. At every position `i`, the output of `fix_duplicate_headers`
is the base key of the `i`-th input header (a blank/whitespace-only cell
having base key `"col"`) if this is the first occurrence of that base
key, and `"{base key}_{N}"` for the `N`-th occurrence (`N ≥ 2`); the
occurrence count `N` = `countKey (baseKey h) (headers.take (i+1))` counts
only headers with the same base key, so the counters are independent per
base key. -/
theorem C5_dedup_positional (headers : List String) (i : Nat) (h : String)
    (hi : headers[i]? = some h) :
    (fix_duplicate_headers headers)[i]? =
      some (if countKey (baseKey h) (headers.take (i + 1)) = 1 then baseKey h
        else baseKey h ++ "_" ++ natRepr (countKey (baseKey h) (headers.take (i + 1)))) := by
  have hmain := fix_duplicate_headers_getElem? headers i h hi
  have hilen : i < headers.length := by
    by_contra hcon
    rw [List.getElem?_eq_none (by omega)] at hi
    exact Option.noConfusion hi
  have hget : headers.get ⟨i, hilen⟩ = h := by
    have h2 := List.getElem?_eq_getElem hilen
    rw [hi] at h2
    exact (Option.some.inj h2).symm
  have hN : 1 ≤ countKey (baseKey h) (headers.take (i + 1)) := by
    have h3 := countKey_take_succ_self headers i hilen
    rw [hget] at h3
    omega
  rw [hmain]
  unfold emitHeader
  by_cases h1 : countKey (baseKey h) (headers.take (i + 1)) = 1
  · rw [if_pos (by omega), if_pos h1]
  · rw [if_neg (by omega), if_neg h1]

/-- Witness for `C5_dedup_positional`: in `["Note", " ", "Note"]` the
header at index 2 is the second occurrence of base key `"Note"` and
comes out as `"Note_2"`. -/
theorem C5_witness :
    (fix_duplicate_headers ["Note", " ", "Note"])[2]? = some "Note_2" := by
  have h := C5_dedup_positional ["Note", " ", "Note"] 2 "Note" rfl
  exact h.trans (by decide)

/-! Section: Claims C2, C3, C4, C6, C7 — table normalizer -/

/-- Claim C3. `clean_number` strips every comma, then attempts an integer
parse; on success it returns the integer, on parse failure it returns
the original input unchanged (it is a total function — the Python
`except` path — so it never raises); and on the spec's concrete cases:
`"4,947,807" ↦ 4947807`, `"abc" ↦ "abc"`, `"" ↦ ""`. -/
theorem C3_clean_number (v : String) :
    (∀ n : Int, pyIntParse (stripCommas v) = some n → clean_number v = PyVal.int n) ∧
    (pyIntParse (stripCommas v) = Option.none → clean_number v = PyVal.str v) ∧
    clean_number "4,947,807" = PyVal.int 4947807 ∧
    clean_number "abc" = PyVal.str "abc" ∧
    clean_number "" = PyVal.str "" := by
  refine ⟨?_, ?_, by decide, by decide, by decide⟩
  · intro n hn
    unfold clean_number
    rw [hn]
  · intro hn
    unfold clean_number
    rw [hn]

/-- Witness for `C3_clean_number`: both parse branches at concrete inputs. -/
theorem C3_witness :
    clean_number "1,23" = PyVal.int 123 ∧ clean_number "x7" = PyVal.str "x7" :=
  ⟨(C3_clean_number "1,23").1 123 (by decide), (C3_clean_number "x7").2.1 (by decide)⟩

/-- Claim C4. A table matrix with fewer than 2 rows (no rows, or a header
row with no data rows) yields an empty record list; the function is
total, so no error is possible. -/
theorem C4_short_table_empty (matrix : List (List String)) (hm : matrix.length < 2) :
    html_table_to_objects matrix = [] := by
  cases matrix with
  | nil => rfl
  | cons a t =>
    cases t with
    | nil => rfl
    | cons b t2 =>
      simp only [List.length_cons] at hm
      omega

/-- Witness for `C4_short_table_empty` at a one-row matrix. -/
theorem C4_witness : html_table_to_objects [["a"]] = [] :=
  C4_short_table_empty [["a"]] (by decide)

/-- Claim C6. With at least 2 rows, one record is built per data row; and
the pairing of header cells with data cells stops at the shorter of the
two sequences: the record for a row only depends on (and only contains
fields for) the positions that exist on both sides — trailing unmatched
header cells or data cells are dropped. All access is by structural
`zip`, so no out-of-range access exists. -/
theorem C6_ragged_pairing (header : List String) :
    (∀ (r : List String) (rest : List (List String)),
      html_table_to_objects (header :: r :: rest) = (r :: rest).map (rowEntry header)) ∧
    (∀ row : List String,
      rowEntry header row = rowEntry (header.take row.length) (row.take header.length)) := by
  constructor
  · intro r rest
    rfl
  · intro row
    show (header.zip row).foldl (fun e p => applyCell e p.1 p.2) {} =
      ((header.take row.length).zip (row.take header.length)).foldl
        (fun e p => applyCell e p.1 p.2) {}
    rw [← zip_take_eq]

/-- Claim C7. Within one data row, every header classified "anything else"
writes the single `name` field, so the last such column (in
left-to-right order) wins: `name` ends up holding the value paired with
the last unrecognized header. -/
theorem C7_last_unrecognized_wins (header row : List String) (p : String × String)
    (hp : ((header.zip row).filter
        (fun q => decide (headerKind q.1 = HKind.other))).getLast? = some p) :
    (rowEntry header row).name = some (PyVal.str p.2) := by
  unfold rowEntry
  rw [foldl_applyCell_name, hp]

/-- Witness for `C7_last_unrecognized_wins`: two unrecognized columns
`"x"` and `"y"`; the record's `name` is the later column's value. -/
theorem C7_witness : (rowEntry ["x", "y"] ["1", "2"]).name = some (PyVal.str "2") :=
  C7_last_unrecognized_wins ["x", "y"] ["1", "2"] ("y", "2") (by decide)

/-- Claim C2. On the spec's concrete table the single produced record is
`{name: "Revenue", year_2024: 4947807, year_2023: 4210000, note: 1}`;
and in general each header is classified on its lower-cased, stripped
text: the `2024` spellings set `year_2024`, the `2023` spellings set
`year_2023`, `note` sets `note` (Python `None` for an empty cell), and
any other header sets `name` to the raw cell value — each with the
stated value transform. -/
theorem C2_field_classification :
    html_table_to_objects
        [["Line Item", "2024", "As Restated 2023", "Note"],
         ["Revenue", "4,947,807", "4,210,000", "1"]] =
      [{ name := some (PyVal.str "Revenue"), year_2024 := some (PyVal.int 4947807),
         year_2023 := some (PyVal.int 4210000), note := some (PyVal.int 1) }] ∧
    (∀ (e : Entry) (h v : String),
      pyStrip (pyLower h) = "2024" ∨ pyStrip (pyLower h) = "year_2024" →
      applyCell e h v = { e with year_2024 := some (clean_number v) }) ∧
    (∀ (e : Entry) (h v : String),
      pyStrip (pyLower h) = "2023" ∨ pyStrip (pyLower h) = "as restated 2023" ∨
        pyStrip (pyLower h) = "year_2023" →
      applyCell e h v = { e with year_2023 := some (clean_number v) }) ∧
    (∀ (e : Entry) (h v : String),
      pyStrip (pyLower h) = "note" →
      applyCell e h v = { e with note := some (if v = "" then PyVal.none else clean_number v) }) ∧
    (∀ (e : Entry) (h v : String),
      pyStrip (pyLower h) ∉
          (["2024", "year_2024", "2023", "as restated 2023", "year_2023", "note"] :
            List String) →
      applyCell e h v = { e with name := some (PyVal.str v) }) := by
  refine ⟨by decide, ?_, ?_, ?_, ?_⟩
  · intro e h v hd
    have hk : headerKind h = HKind.y24 := by
      unfold headerKind
      rcases hd with h1 | h1 <;> simp [h1]
    unfold applyCell
    rw [hk]
  · intro e h v hd
    have hk : headerKind h = HKind.y23 := by
      unfold headerKind
      rcases hd with h1 | h1 | h1 <;> simp [h1]
    unfold applyCell
    rw [hk]
  · intro e h v hd
    have hk : headerKind h = HKind.note := by
      unfold headerKind
      simp [hd]
    unfold applyCell
    rw [hk]
  · intro e h v hd
    simp only [List.mem_cons, List.not_mem_nil, or_false, not_or] at hd
    have hk : headerKind h = HKind.other := by
      unfold headerKind
      rw [if_neg (by tauto), if_neg (by tauto), if_neg (by tauto)]
    unfold applyCell
    rw [hk]

/-- Witness for `C2_field_classification`: a padded, mixed-case header
`" 2024 "` is still classified as `year_2024`. -/
theorem C2_witness :
    applyCell {} " 2024 " "9" = { year_2024 := some (PyVal.int 9) } := by
  have h := C2_field_classification.2.1 {} " 2024 " "9" (Or.inl (by decide))
  exact h.trans (by decide)

/-! Section: The per-page table loop — claims C8 and C10 -/

theorem processTables_json (page : Nat) :
    ∀ (tIndex : Nat) (ms : List (List (List String))),
      (processTables page tIndex ms).1 =
        (enumFrom tIndex ms).filterMap (fun im =>
          if im.2.length < 2 then Option.none
          else some { page := page, table_index := im.1,
                      rows := html_table_to_objects im.2 }) := by
  intro tIndex ms
  induction ms generalizing tIndex with
  | nil => rfl
  | cons m rest ih =>
    simp only [processTables, enumFrom, List.filterMap_cons]
    by_cases hm : m.length < 2 <;> simp [hm, ih (tIndex + 1)]

theorem processTables_views (page : Nat) :
    ∀ (tIndex : Nat) (ms : List (List (List String))),
      (processTables page tIndex ms).2 =
        ms.filterMap (fun m =>
          if m.length < 2 then Option.none
          else some { headers := fix_duplicate_headers (m.headD []), rows := m.tail }) := by
  intro tIndex ms
  induction ms generalizing tIndex with
  | nil => rfl
  | cons m rest ih =>
    simp only [processTables, List.filterMap_cons]
    by_cases hm : m.length < 2 <;> simp [hm, ih (tIndex + 1)]

/-- Claim C8. The JSON entries of the per-page loop carry
`html_table_to_objects` of the RAW matrix of each accepted table —
record construction keys off the raw first-row header, never off the
deduplicated headers, which feed only the display views (`.2`) — and
this distinction is observable: on a table whose raw header repeats
`"2024"`, classifying by the deduplicated header would yield different
records than the code does. -/
theorem C8_records_use_raw_headers (page tIndex : Nat) (ms : List (List (List String))) :
    (processTables page tIndex ms).1 =
      (enumFrom tIndex ms).filterMap (fun im =>
        if im.2.length < 2 then Option.none
        else some { page := page, table_index := im.1,
                    rows := html_table_to_objects im.2 }) ∧
    html_table_to_objects [["2024", "2024"], ["5", "6"]] ≠
      html_table_to_objects (fix_duplicate_headers ["2024", "2024"] :: [["5", "6"]]) :=
  ⟨processTables_json page tIndex ms, by decide⟩

/-- Claim C10. A located table whose matrix has fewer than 2 rows is
omitted from every output of the loop — the whole result is as if
processing had continued on the remaining tables — yet the per-page
table counter still advances past it; concretely, with a short table in
second position the recorded `table_index` values are `[1, 3]`, skipping
`2`, and only two header/row views are produced. -/
theorem C10_short_table_counted_not_emitted (page tIndex : Nat) (m : List (List String))
    (ms : List (List (List String))) (hm : m.length < 2) :
    processTables page tIndex (m :: ms) = processTables page (tIndex + 1) ms ∧
    (processTables 1 1 [[["h1", "h2"], ["a", "b"]], [["only header"]],
        [["x"], ["1"]]]).1.map (fun t => t.table_index) = [1, 3] ∧
    (processTables 1 1 [[["h1", "h2"], ["a", "b"]], [["only header"]],
        [["x"], ["1"]]]).2.length = 2 := by
  refine ⟨?_, by decide, by decide⟩
  simp only [processTables, if_pos hm]

/-- Witness for `C10_short_table_counted_not_emitted` at a concrete
short table. -/
theorem C10_witness :
    processTables 7 3 [[["only header"]], [["h"], ["v"]]] =
      processTables 7 4 [[["h"], ["v"]]] :=
  (C10_short_table_counted_not_emitted 7 3 [["only header"]] [[["h"], ["v"]]] (by decide)).1

/-! Section: Table/text separation — claim C9 -/

mutual
/-- Refinement reference for C9, following the spec's words ("remove
every located table element from the parse tree first, then extract
remaining text content"): the text content of a subtree with every
`table` subtree skipped. -/
def specTextsN : Node → List String
  | Node.text s => [s]
  | Node.elem t cs => if t = "table" then [] else specTextsL cs
/-- The spec-side non-table text content of a list of sibling subtrees. -/
def specTextsL : NodeList → List String
  | NodeList.nil => []
  | NodeList.cons n ns => specTextsN n ++ specTextsL ns
end

mutual
theorem textsN_prune (n : Node) (h : isTable n = false) :
    textsN (pruneTables n) = specTextsN n := by
  cases n with
  | text s => rfl
  | elem t cs =>
    have ht : ¬ t = "table" := by simpa [isTable] using h
    simp only [pruneTables, textsN, specTextsN, if_neg ht]
    exact textsL_prune cs
theorem textsL_prune (ns : NodeList) :
    textsL (pruneTablesL ns) = specTextsL ns := by
  cases ns with
  | nil => rfl
  | cons n ns' =>
    by_cases hn : isTable n = true
    · have hspec : specTextsN n = [] := by
        cases n with
        | text s => simp [isTable] at hn
        | elem t cs =>
          simp only [isTable, decide_eq_true_eq] at hn
          simp [specTextsN, hn]
      simp only [pruneTablesL, if_pos hn, specTextsL, hspec, List.nil_append]
      exact textsL_prune ns'
    · simp only [pruneTablesL, if_neg hn, textsL, specTextsL]
      rw [textsN_prune n (by simpa using hn), textsL_prune ns']
end

/-- A `<td>` cell holding one text node. -/
def mkCell (c : String) : Node :=
  Node.elem "td" (NodeList.cons (Node.text c) NodeList.nil)

/-- A `<tr>` row of simple cells. -/
def mkRow (r : List String) : Node := Node.elem "tr" (toNodeList (r.map mkCell))

/-- A `<table>` element whose rows are `<tr>` elements of `<td>` cells
each holding one text node. -/
def mkTable (rows : List (List String)) : Node :=
  Node.elem "table" (toNodeList (rows.map mkRow))

theorem findTagsL_toNodeList (tags : List String) :
    ∀ l : List Node, findTagsL tags (toNodeList l) = (l.map (findTagsN tags)).flatten := by
  intro l
  induction l with
  | nil => rfl
  | cons n ns ih => simp [toNodeList, findTagsL, ih]

theorem flatten_singleton_map {α β : Type} (f : α → β) :
    ∀ l : List α, (l.map (fun x => [f x])).flatten = l.map f := by
  intro l
  induction l with
  | nil => rfl
  | cons a l' ih => simp [ih]

theorem flatten_nil_map {α β : Type} :
    ∀ l : List α, (l.map (fun _ => ([] : List β))).flatten = [] := by
  intro l
  induction l with
  | nil => rfl
  | cons a l' ih => simp [ih]

theorem findTagsN_mkCell_tr (c : String) : findTagsN ["tr"] (mkCell c) = [] := by
  simp [mkCell, findTagsN, findTagsL]

theorem findTagsN_mkCell_tdth (c : String) :
    findTagsN ["td", "th"] (mkCell c) = [mkCell c] := by
  simp [mkCell, findTagsN, findTagsL]

theorem findTagsN_mkRow_tr (r : List String) : findTagsN ["tr"] (mkRow r) = [mkRow r] := by
  have h1 : List.map (findTagsN ["tr"] ∘ mkCell) r = List.map (fun _ => ([] : List Node)) r :=
    List.map_congr_left (fun c _ => findTagsN_mkCell_tr c)
  simp only [mkRow, findTagsN, findTagsL_toNodeList, List.map_map, h1, flatten_nil_map,
    List.append_nil]
  simp

theorem get_text_single (c : String) : get_text "" [c] = pyStrip c := by
  unfold get_text
  by_cases hc : pyStrip c = ""
  · simp [hc, joinSep]
  · simp [hc, joinSep]

theorem row_cells_text (r : List String) :
    (find_all ["td", "th"] (mkRow r)).map (fun cell => get_text "" (textsN cell)) =
      r.map pyStrip := by
  have h1 : List.map (findTagsN ["td", "th"] ∘ mkCell) r = List.map (fun c => [mkCell c]) r :=
    List.map_congr_left (fun c _ => findTagsN_mkCell_tdth c)
  simp only [mkRow, find_all, findTagsL_toNodeList, List.map_map, h1]
  rw [flatten_singleton_map mkCell r, List.map_map]
  exact List.map_congr_left (fun c _ => get_text_single c)

theorem html_table_to_matrix_mkTable (rows : List (List String)) :
    html_table_to_matrix (mkTable rows) = rows.map (fun r => r.map pyStrip) := by
  have h1 : List.map (findTagsN ["tr"] ∘ mkRow) rows = List.map (fun r => [mkRow r]) rows :=
    List.map_congr_left (fun r _ => findTagsN_mkRow_tr r)
  simp only [html_table_to_matrix, mkTable, find_all, findTagsL_toNodeList, List.map_map, h1]
  rw [flatten_singleton_map mkRow rows, List.map_map]
  exact List.map_congr_left (fun r _ => row_cells_text r)

theorem pruneTablesL_mkCells :
    ∀ r : List String, pruneTablesL (toNodeList (r.map mkCell)) = toNodeList (r.map mkCell) := by
  intro r
  induction r with
  | nil => rfl
  | cons c r' ih =>
    show pruneTablesL (NodeList.cons (mkCell c) (toNodeList (r'.map mkCell))) = _
    rw [show pruneTablesL (NodeList.cons (mkCell c) (toNodeList (r'.map mkCell))) =
        NodeList.cons (pruneTables (mkCell c)) (pruneTablesL (toNodeList (r'.map mkCell))) from rfl]
    rw [ih]
    rfl

theorem pruneTables_mkRow (r : List String) : pruneTables (mkRow r) = mkRow r := by
  show Node.elem "tr" (pruneTablesL (toNodeList (r.map mkCell))) = _
  rw [pruneTablesL_mkCells]
  rfl

theorem pruneTables_mkTable (rows : List (List String)) :
    pruneTables (mkTable rows) = mkTable rows := by
  show Node.elem "table" (pruneTablesL (toNodeList (rows.map mkRow))) = _
  have h : ∀ rs : List (List String),
      pruneTablesL (toNodeList (rs.map mkRow)) = toNodeList (rs.map mkRow) := by
    intro rs
    induction rs with
    | nil => rfl
    | cons r rs' ih =>
      show pruneTablesL (NodeList.cons (mkRow r) (toNodeList (rs'.map mkRow))) = _
      rw [show pruneTablesL (NodeList.cons (mkRow r) (toNodeList (rs'.map mkRow))) =
          NodeList.cons (pruneTables (mkRow r)) (pruneTablesL (toNodeList (rs'.map mkRow))) from
        rfl]
      rw [ih, pruneTables_mkRow]
      rfl
  rw [h]
  rfl

/-- Claim C9. Table/text separation: (a) for EVERY page parse tree, the
plain text is extracted from exactly the non-table text content
(per-node stripped, empty pieces dropped, block boundaries joined with
newlines) — so no table cell text leaks into the plain text and no
non-table text is lost; (b) one fragment is produced per located
`<table>` in document order, each computed on that table as the
extraction loop leaves it, i.e. with its own descendant tables
detached; (c) the extracted fragment of a table of simple rows contains
exactly that table's rows in order (cells trimmed); (d) on a concrete
paragraph/table/paragraph page, the plain text is the two paragraphs
joined by a newline and the single fragment is exactly the table's
rows; and (e) on a page whose table nests another table inside a cell,
the outer fragment is `[["a"]]` — the nested table's rows and cell text
are NOT part of it, having been extracted — and the nested table yields
its own fragment `[["b"]]`. -/
theorem C9_table_text_separation :
    (∀ soup : NodeList, (splitPage soup).text_plain = get_text "\n" (specTextsL soup)) ∧
    (∀ soup : NodeList,
      (splitPage soup).fragments =
        (findTagsL ["table"] soup).map (fun t => html_table_to_matrix (pruneTables t))) ∧
    (∀ rows : List (List String),
      html_table_to_matrix (pruneTables (mkTable rows)) = rows.map (fun r => r.map pyStrip)) ∧
    splitPage (toNodeList
        [Node.elem "p" (NodeList.cons (Node.text "First para.") NodeList.nil),
         mkTable [["A", "B"], ["1", "2"]],
         Node.elem "p" (NodeList.cons (Node.text "After table.") NodeList.nil)]) =
      { text_plain := "First para.\nAfter table.",
        fragments := [[["A", "B"], ["1", "2"]]] } ∧
    splitPage (toNodeList
        [Node.elem "table" (NodeList.cons
          (Node.elem "tr" (NodeList.cons
            (Node.elem "td" (NodeList.cons (Node.text "a") (NodeList.cons
              (Node.elem "table" (NodeList.cons
                (Node.elem "tr" (NodeList.cons
                  (Node.elem "td" (NodeList.cons (Node.text "b") NodeList.nil))
                  NodeList.nil))
                NodeList.nil))
              NodeList.nil)))
            NodeList.nil))
          NodeList.nil)]) =
      { text_plain := "", fragments := [[["a"]], [["b"]]] } := by
  refine ⟨?_, fun soup => rfl, ?_, by decide, by decide⟩
  · intro soup
    show get_text "\n" (textsL (pruneTablesL soup)) = _
    rw [textsL_prune]
  · intro rows
    rw [pruneTables_mkTable]
    exact html_table_to_matrix_mkTable rows

end App
